import Mathlib

/-!
# Verification of the SEO keyword backend (`backend/main.py`)

Shallow embedding of the pure/reshaping logic of the single-file FastAPI
backend.  External effects (pdfplumber, python-docx, the OpenAI client and
pytrends) are modelled as explicit parameters describing the outcome of each
external call; everything the Python code itself computes is translated
directly.  Python `float` scores are modelled as `ℚ`; Python `dict`s as
insertion-ordered association lists.
-/

/-- The ASCII whitespace characters stripped by Python's `str.strip()` and
matched by `\s` in the bullet regex (unicode whitespace is not modelled). -/
def pyWS (c : Char) : Bool :=
  c = ' ' || c = '\t' || c = '\n' || c = '\r' || c = '\x0b' || c = '\x0c'

/-- `not text.strip()` in Python: the string is empty or all whitespace. -/
def isBlank (s : String) : Bool :=
  s.data.all pyWS

/-- `filename.lower()` (ASCII case folding, as used on file names). -/
def pyLower (s : String) : String :=
  ⟨s.data.map Char.toLower⟩

/-- `s.endswith(suffix)`. -/
def pyEndswith (s suffix : String) : Bool :=
  suffix.data.isSuffixOf s.data

/-- A Python dict from keyword to score-or-`None`
(`scores: Dict[str, float]`, where a stored `None` marks "unknown"). -/
abbrev ScoreDict := List (String × Option ℚ)

/-- Dict lookup `d.get(k)` distinguishing "absent" from "stored `None`":
`none` = key absent, `some v` = key present with value `v`. -/
def dictGet : ScoreDict → String → Option (Option ℚ)
  | [], _ => none
  | p :: d, k => if p.1 = k then some p.2 else dictGet d k

/-- Dict assignment `d[k] = v`: overwrite in place if the key is present
(Python keeps the original insertion position), else append. -/
def dictSet : ScoreDict → String → Option ℚ → ScoreDict
  | [], k, v => [(k, v)]
  | p :: d, k, v => if p.1 = k then (k, v) :: d else p :: dictSet d k v

/-- `d.setdefault(k, v)`: insert `(k, v)` at the end only if `k` is absent. -/
def dictSetdefault (d : ScoreDict) (k : String) (v : Option ℚ) : ScoreDict :=
  if (dictGet d k).isSome then d else d ++ [(k, v)]

/-- Recursion kernel for `chunk`: the first argument is fuel, always called
with at least `lst.length`, so the fuel-exhaustion branch is unreachable
(structural recursion on the fuel keeps the definition kernel-reducible). -/
def chunkGo : ℕ → List String → ℕ → List (List String)
  | _, [], _ => []
  | _, _ :: _, 0 => []
  | 0, _ :: _, _ + 1 => []
  | f + 1, x :: xs, m + 1 =>
      (x :: xs).take (m + 1) :: chunkGo f ((x :: xs).drop (m + 1)) (m + 1)

/-- `chunk` from `main.py`:
`[lst[i : i + n] for i in range(0, len(lst), n)]`.
For `n = 0` Python's `range` raises `ValueError`; the function is only ever
invoked with `n = 5`, and we return `[]` in that unreachable case. -/
def chunk (lst : List String) (n : ℕ) : List (List String) :=
  chunkGo lst.length lst n

/-- Outcome of one pytrends batch (`build_payload` + `interest_over_time`):
either the pair of calls raises, or the frame is `None`/empty, or it yields a
per-keyword column mean (`df.mean(numeric_only=True)` after dropping the
`isPartial` column), modelled as the resulting means dict. -/
inductive TrendsResult where
  | failure
  | empty
  | data (means : List (String × ℚ))
deriving DecidableEq

/-- `means.get(k)` on the means dict (`None` when the column is missing). -/
def meansGet (means : List (String × ℚ)) (k : String) : Option ℚ :=
  match means.find? (fun p => p.1 == k) with
  | some p => some p.2
  | none => none

/-- `for k in group: scores.setdefault(k, None)` — the failure/empty path. -/
def setNoneAll (scores : ScoreDict) : List String → ScoreDict
  | [] => scores
  | k :: ks => setNoneAll (dictSetdefault scores k none) ks

/-- `for k in group: scores[k] = float(means.get(k)) if k in means else None`. -/
def setMeansAll (means : List (String × ℚ)) (scores : ScoreDict) :
    List String → ScoreDict
  | [] => scores
  | k :: ks => setMeansAll means (dictSet scores k (meansGet means k)) ks

/-- One iteration of the `for group in chunk(keywords, 5)` loop body. -/
def processBatch (res : TrendsResult) (scores : ScoreDict) (group : List String) :
    ScoreDict :=
  match res with
  | .failure => setNoneAll scores group
  | .empty => setNoneAll scores group
  | .data means => setMeansAll means scores group

/-- The batch loop of `trends_popularity`; `svc i` is the outcome of the
`i`-th pytrends query.  Also returns the list of groups that were sent to
`build_payload`, in order. -/
def trendsLoop (svc : ℕ → TrendsResult) :
    ℕ → ScoreDict → List (List String) → ScoreDict × List (List String)
  | _, scores, [] => (scores, [])
  | i, scores, g :: gs =>
      ((trendsLoop svc (i + 1) (processBatch (svc i) scores g) gs).1,
       g :: (trendsLoop svc (i + 1) (processBatch (svc i) scores g) gs).2)

/-- Result of a `trends_popularity` call: the returned dict, whether a
`TrendReq` client was constructed, and which groups were queried. -/
structure TrendsRun where
  scores : ScoreDict
  clientConstructed : Bool
  queries : List (List String)
deriving DecidableEq

/-- `trends_popularity` from `main.py`: early `{}` return on an empty keyword
list (before `TrendReq(...)` is built), otherwise batch the keywords by 5 and
run the loop. -/
def trends_popularity (keywords : List String) (svc : ℕ → TrendsResult) :
    TrendsRun :=
  if keywords.isEmpty then ⟨[], false, []⟩
  else
    let p := trendsLoop svc 0 [] (chunk keywords 5)
    ⟨p.1, true, p.2⟩

/-- The closure `sort_key` in `upload`:
`v = popularity.get(k); return (-v) if isinstance(v, (int, float)) else float("-inf")`.
The result is `-v` for a numeric score and `-inf` otherwise (key absent, or a
stored `None`); we model the extended value as `Option ℚ` with `none = -inf`. -/
def sort_key (popularity : ScoreDict) (k : String) : Option ℚ :=
  match dictGet popularity k with
  | some (some v) => some (-v)
  | _ => none

/-- `≥` on sort keys, with `none` playing `float("-inf")`. -/
def keyGe (a b : Option ℚ) : Bool :=
  match a, b with
  | none, none => true
  | none, some _ => false
  | some _, none => true
  | some x, some y => decide (y ≤ x)

/-- Stable insertion for a descending-by-key sort: `x` passes over exactly the
elements whose key is strictly greater than its own, so elements with equal
keys keep their original relative order. -/
def insertDesc (key : String → Option ℚ) (x : String) : List String → List String
  | [] => [x]
  | y :: ys => if keyGe (key x) (key y) then x :: y :: ys else y :: insertDesc key x ys

/-- `sorted(candidates, key=key, reverse=True)`: the (unique) stable reordering
that is descending in `key`.  CPython's Timsort with `reverse=True` is stable
and sorts descending by key, which this insertion sort reproduces exactly. -/
def sortDesc (key : String → Option ℚ) : List String → List String
  | [] => []
  | x :: xs => insertDesc key x (sortDesc key xs)

/-- Steps (4) of `upload`:
`ranked = sorted(candidates, key=sort_key, reverse=True)` followed by
`keywords_ranked = [{"keyword": k, "popularity": popularity.get(k)} for k in ranked]`. -/
def rankKeywords (candidates : List String) (popularity : ScoreDict) :
    List (String × Option ℚ) :=
  let ranked := sortDesc (sort_key popularity) candidates
  ranked.map (fun k => (k, (dictGet popularity k).join))

/-- `list(dict.fromkeys(l))` builds an insertion-ordered dict over the keys and
lists them back: each element is kept iff it has not been seen before.
`seen` is the set of keys already inserted. -/
def fromkeysAux (seen : List String) : List String → List String
  | [] => []
  | x :: xs => if x ∈ seen then fromkeysAux seen xs else x :: fromkeysAux (x :: seen) xs

/-- `list(dict.fromkeys(l))`: de-duplication keeping first occurrences. -/
def fromkeys (l : List String) : List String :=
  fromkeysAux [] l

/-- `s.strip()`: drop whitespace from both ends. -/
def pyStrip (l : List Char) : List Char :=
  ((l.dropWhile pyWS).reverse.dropWhile pyWS).reverse

/-- `s.strip("`")`: drop backticks from both ends. -/
def stripBackticks (l : List Char) : List Char :=
  ((l.dropWhile (· = '`')).reverse.dropWhile (· = '`')).reverse

/-- `s.splitlines()` restricted to the `\n`, `\r\n` and `\r` terminators
(Python also splits on `\v`, `\f`, `\x1c`, `\x1d`, `\x1e`, `\x85`, `\u2028`,
`\u2029`; those are not modelled).  Note Python yields no trailing empty line:
`"a\n".splitlines() == ["a"]` and `"".splitlines() == []`. -/
def pySplitlines : List Char → List (List Char)
  | [] => []
  | '\r' :: '\n' :: rest => [] :: pySplitlines rest
  | '\n' :: rest => [] :: pySplitlines rest
  | '\r' :: rest => [] :: pySplitlines rest
  | c :: rest =>
    match pySplitlines rest with
    | [] => [[c]]
    | line :: more => (c :: line) :: more

/-- `s.find(c)` for a single-character needle: index of the first occurrence,
`none` standing for Python's `-1`. -/
def pyFind (c : Char) : List Char → Option ℕ
  | [] => none
  | x :: xs => if x = c then some 0 else (pyFind c xs).map (· + 1)

/-- `s.rfind(c)` for a single-character needle: index of the last occurrence,
`none` standing for Python's `-1`. -/
def pyRFind (c : Char) (l : List Char) : Option ℕ :=
  match pyFind c l.reverse with
  | some r => some (l.length - 1 - r)
  | none => none

/-- The first half of `_clean_json_block`:
`s = s.strip()`, then if the result starts with three backticks,
`s = s.strip("`")` followed by `s = "\n".join(s.splitlines()[1:])`. -/
def fenceStage (s : String) : List Char :=
  let t := pyStrip s.data
  if t.take 3 = ['`', '`', '`'] then
    List.intercalate ['\n'] ((pySplitlines (stripBackticks t)).drop 1)
  else t

/-- The second half of `_clean_json_block`:
`start = s.find("\x7b")`, `end = s.rfind("\x7d")`, and the slice
`s[start : end + 1]` when both markers exist with `end > start`, else the
input unchanged. -/
def braceSlice (t : List Char) : List Char :=
  match pyFind '\x7b' t, pyRFind '\x7d' t with
  | some start, some stop =>
      if start < stop then (t.take (stop + 1)).drop start else t
  | _, _ => t

/-- `_clean_json_block` from `main.py`: the fence stage followed by the
brace slice. -/
def clean_json_block (s : String) : String :=
  ⟨braceSlice (fenceStage s)⟩

/-- An element added to the python-docx `Document` by `markdown_to_docx`. -/
inductive DocElem where
  | heading1 (text : List Char)
  | heading2 (text : List Char)
  | bullet (text : List Char)
  | para (text : List Char)
deriving DecidableEq

/-- `re.match(r"^\s*-\s+", line)` together with
`re.sub(r"^\s*-\s+", "", line)`: when the line is optional whitespace, a
dash and at least one whitespace character, return the line with that
(greedy, hence maximal) prefix removed. -/
def bulletMatch (line : List Char) : Option (List Char) :=
  match line.dropWhile pyWS with
  | '-' :: rest =>
    match rest with
    | w :: _ => if pyWS w then some (rest.dropWhile pyWS) else none
    | [] => none
  | _ => none

/-- The per-line dispatch of `markdown_to_docx`: `## ` heading, `### `
sub-heading, bullet, else plain paragraph (blank lines included). -/
def lineToElem (line : List Char) : DocElem :=
  if line.take 3 = ['#', '#', ' '] then .heading1 (line.drop 3)
  else if line.take 4 = ['#', '#', '#', ' '] then .heading2 (line.drop 4)
  else
    match bulletMatch line with
    | some content => .bullet content
    | none => .para line

/-- `markdown_to_docx` from `main.py`, with the generated document modelled as
the ordered list of elements added to it. -/
def markdown_to_docx (md_text : String) : List DocElem :=
  (pySplitlines md_text.data).map lineToElem



/-- The parsed keyword taxonomy produced by `generate_keywords_from_doc`
(after `json.loads` and the two `setdefault` calls, so the keyword lists are
always present; the other fields are read back with `.get` defaults). -/
structure SeoData where
  language_detected : Option String
  primary_topics : List String
  by_intent : List (String × List String)
  questions : List String
  seed_keywords : List String
  long_tail_keywords : List String
deriving DecidableEq

/-- Outcomes of the external calls made by one `upload` request:
what each extractor would return for the uploaded bytes, whether the keyword
LLM call + JSON parse succeeds (`Except.error` = an exception propagates),
the per-batch pytrends outcomes, the copy LLM outcome (`Except.error e` =
an exception with message `e`), whether the DOCX export succeeds, and the
random file name `f"seo-draft-<uuid>.docx"`. -/
structure UploadDeps where
  pdfText : String
  docxText : String
  keywords : Except Unit SeoData
  trends : ℕ → TrendsResult
  copy : Except String String
  exportOk : Bool
  docxName : String

/-- External calls observable during an `upload` request, in order. -/
inductive PipeEvent where
  | extractPdf
  | extractDocx
  | llmKeywords
  | trendsQuery (group : List String)
  | llmCopy
deriving DecidableEq

/-- The error responses `upload` can raise: HTTP 400 for an unsupported
extension, HTTP 422 for blank extracted text, and a propagated exception
when the keyword call or its JSON parse fails. -/
inductive UploadError where
  | unsupportedType
  | emptyText
  | keywordFailure
deriving DecidableEq

/-- The JSON body returned by a successful `upload` request. -/
structure UploadResponse where
  language_detected : Option String
  primary_topics : List String
  by_intent : List (String × List String)
  questions : List String
  keywords_ranked : List (String × Option ℚ)
  seed_keywords : List String
  long_tail_keywords : List String
  seo_copy_markdown : String
  docx_filename : Option String
deriving DecidableEq

/-- Steps (1)-(6) of `upload` once the text has been extracted. -/
def pipelineAfterText (d : UploadDeps) (text : String) :
    Except UploadError UploadResponse × List PipeEvent :=
  if isBlank text then (Except.error UploadError.emptyText, [])
  else
    match d.keywords with
    | Except.error _ => (Except.error UploadError.keywordFailure, [PipeEvent.llmKeywords])
    | Except.ok sd =>
      let seeds := (fromkeys sd.seed_keywords).take 15
      let longtails := (fromkeys sd.long_tail_keywords).take 15
      let candidates := seeds ++ longtails
      let run := trends_popularity candidates d.trends
      let kr := rankKeywords candidates run.scores
      let copyMd :=
        match d.copy with
        | Except.ok c => c
        | Except.error e => "Error generating SEO copy: " ++ e
      let docxFile := if d.exportOk then some d.docxName else none
      (Except.ok ⟨sd.language_detected, sd.primary_topics, sd.by_intent,
        sd.questions, kr, seeds, longtails, copyMd, docxFile⟩,
       PipeEvent.llmKeywords :: run.queries.map PipeEvent.trendsQuery ++ [PipeEvent.llmCopy])

/-- The `upload` route of `main.py`: dispatch on
`file.filename.lower().endswith(...)`, rejecting anything that is neither
`.pdf` nor `.docx` before any pipeline step runs, then hand the extracted
text to the pipeline. -/
def upload (filename : String) (d : UploadDeps) :
    Except UploadError UploadResponse × List PipeEvent :=
  let nameLower := pyLower filename
  if pyEndswith nameLower ".pdf" then
    let r := pipelineAfterText d d.pdfText
    (r.1, PipeEvent.extractPdf :: r.2)
  else if pyEndswith nameLower ".docx" then
    let r := pipelineAfterText d d.docxText
    (r.1, PipeEvent.extractDocx :: r.2)
  else (Except.error UploadError.unsupportedType, [])

/-- The batches sent to pytrends, read off an event trace. -/
def trendsQueriesOf (evs : List PipeEvent) : List (List String) :=
  evs.filterMap (fun e =>
    match e with
    | PipeEvent.trendsQuery g => some g
    | _ => none)

/-! ## Concrete fixtures used in example runs -/

/-- A taxonomy whose single keyword is both a seed and a long-tail phrase. -/
def sdX : SeoData := ⟨none, [], [], [], ["x"], ["x"]⟩

/-- Request outcomes for an ordinary successful run over `sdX`. -/
def depsX : UploadDeps :=
  ⟨"body", "", Except.ok sdX, fun _ => TrendsResult.failure, Except.ok "c", false, ""⟩

/-- Request outcomes whose extracted text is blank for both extractors. -/
def depsBlank : UploadDeps :=
  ⟨" ", "", Except.ok sdX, fun _ => TrendsResult.failure, Except.ok "c", false, ""⟩

/-- Request outcomes where the copy-composition call raises. -/
def depsCopyFail : UploadDeps :=
  ⟨"body", "", Except.ok sdX, fun _ => TrendsResult.failure,
   Except.error "boom", true, "seo-draft-1.docx"⟩

/-- A trends service whose first batch returns data and whose later batches
raise. -/
def svcC2 : ℕ → TrendsResult := fun i =>
  if i = 0 then
    TrendsResult.data [("a", 80), ("b", 10), ("c", 10), ("d", 10), ("e", 10)]
  else TrendsResult.failure

/-! ## Lemmas about `chunk` -/

theorem chunkGo_fuel_eq (f₁ : ℕ) :
    ∀ (f₂ : ℕ) (l : List String) (n : ℕ), l.length ≤ f₁ → l.length ≤ f₂ →
      chunkGo f₁ l n = chunkGo f₂ l n := by
  induction f₁ with
  | zero =>
    intro f₂ l n h1 _
    have : l = [] := List.eq_nil_of_length_eq_zero (Nat.le_zero.mp h1)
    subst this
    cases f₂ <;> rfl
  | succ f ih =>
    intro f₂ l n h1 h2
    cases l with
    | nil => cases f₂ <;> rfl
    | cons x xs =>
      cases n with
      | zero => cases f₂ <;> rfl
      | succ m =>
        cases f₂ with
        | zero => simp at h2
        | succ f₂' =>
          simp only [chunkGo]
          congr 1
          apply ih
          · simp only [List.length_drop, List.length_cons] at *
            omega
          · simp only [List.length_drop, List.length_cons] at *
            omega

theorem chunk_nil (n : ℕ) : chunk [] n = [] := rfl

theorem chunk_cons (x : String) (xs : List String) (m : ℕ) :
    chunk (x :: xs) (m + 1) =
      (x :: xs).take (m + 1) :: chunk ((x :: xs).drop (m + 1)) (m + 1) := by
  show chunkGo (xs.length + 1) (x :: xs) (m + 1) = _
  simp only [chunkGo, chunk]
  congr 1
  apply chunkGo_fuel_eq <;> simp only [List.length_drop, List.length_cons] <;> omega

theorem chunk_ne_nil (x : String) (xs : List String) (m : ℕ) :
    chunk (x :: xs) (m + 1) ≠ [] := by
  rw [chunk_cons]
  exact List.cons_ne_nil _ _

/-- The groups of `chunk` concatenate back to the input list. -/
theorem chunk_join (n : ℕ) (l : List String) : (chunk l (n + 1)).flatten = l := by
  have key : ∀ (k : ℕ) (l : List String), l.length ≤ k → (chunk l (n + 1)).flatten = l := by
    intro k
    induction k with
    | zero =>
      intro l hl
      have : l = [] := List.eq_nil_of_length_eq_zero (Nat.le_zero.mp hl)
      subst this
      rfl
    | succ k ih =>
      intro l hl
      cases l with
      | nil => rfl
      | cons x xs =>
        rw [chunk_cons, List.flatten_cons, ih]
        · exact List.take_append_drop _ _
        · simp only [List.length_drop, List.length_cons] at *
          omega
  exact key l.length l le_rfl

/-- Every group produced by `chunk` is nonempty and holds at most `n + 1`
keywords. -/
theorem chunk_mem_length (n : ℕ) (l : List String) :
    ∀ g ∈ chunk l (n + 1), g.length ≤ n + 1 ∧ g ≠ [] := by
  have key : ∀ (k : ℕ) (l : List String), l.length ≤ k →
      ∀ g ∈ chunk l (n + 1), g.length ≤ n + 1 ∧ g ≠ [] := by
    intro k
    induction k with
    | zero =>
      intro l hl
      have : l = [] := List.eq_nil_of_length_eq_zero (Nat.le_zero.mp hl)
      subst this
      intro g hg
      simp [chunk_nil] at hg
    | succ k ih =>
      intro l hl g hg
      cases l with
      | nil => simp [chunk_nil] at hg
      | cons x xs =>
        rw [chunk_cons] at hg
        rcases List.mem_cons.mp hg with h | h
        · subst h
          constructor
          · exact List.length_take_le _ _
          · simp
        · refine ih _ ?_ g h
          have hlen := hl
          simp only [List.length_cons] at hlen
          simp only [List.length_drop, List.length_cons]
          omega
  exact key l.length l le_rfl

/-- Every group except possibly the last has exactly `n + 1` keywords. -/
theorem chunk_dropLast_length (n : ℕ) (l : List String) :
    ∀ g ∈ (chunk l (n + 1)).dropLast, g.length = n + 1 := by
  have key : ∀ (k : ℕ) (l : List String), l.length ≤ k →
      ∀ g ∈ (chunk l (n + 1)).dropLast, g.length = n + 1 := by
    intro k
    induction k with
    | zero =>
      intro l hl
      have : l = [] := List.eq_nil_of_length_eq_zero (Nat.le_zero.mp hl)
      subst this
      intro g hg
      simp [chunk_nil] at hg
    | succ k ih =>
      intro l hl g hg
      cases l with
      | nil => simp [chunk_nil] at hg
      | cons x xs =>
        rw [chunk_cons] at hg
        rcases h : chunk ((x :: xs).drop (n + 1)) (n + 1) with _ | ⟨r, rs⟩
        · rw [h] at hg
          simp at hg
        · rw [h, List.dropLast_cons_of_ne_nil (by simp)] at hg
          rcases List.mem_cons.mp hg with hgt | hgt
          · subst hgt
            have hdrop : (x :: xs).drop (n + 1) ≠ [] := by
              intro hnil
              rw [hnil, chunk_nil] at h
              exact List.cons_ne_nil _ _ h.symm
            have hlt : n + 1 < (x :: xs).length := by
              by_contra hle
              exact hdrop (List.drop_eq_nil_of_le (by omega))
            simp only [List.length_cons] at hlt
            simp only [List.length_take, List.length_cons]
            omega
          · rw [← h] at hgt
            refine ih _ ?_ g hgt
            have hlen := hl
            simp only [List.length_cons] at hlen
            simp only [List.length_drop, List.length_cons]
            omega
  exact key l.length l le_rfl

/-! ## Lemmas about the dict operations -/

theorem dictGet_dictSet_self (d : ScoreDict) (k : String) (v : Option ℚ) :
    dictGet (dictSet d k v) k = some v := by
  induction d with
  | nil => simp [dictSet, dictGet]
  | cons p d ih =>
    by_cases h : p.1 = k
    · simp [dictSet, dictGet, h]
    · simp [dictSet, dictGet, h, ih]

theorem dictGet_dictSet_ne (d : ScoreDict) (k k' : String) (v : Option ℚ)
    (h : k' ≠ k) : dictGet (dictSet d k v) k' = dictGet d k' := by
  induction d with
  | nil => simp [dictSet, dictGet, Ne.symm h]
  | cons p d ih =>
    by_cases hp : p.1 = k
    · simp [dictSet, dictGet, hp, Ne.symm h]
    · simp [dictSet, dictGet, hp, ih]

theorem dictGet_append (d e : ScoreDict) (k : String) :
    dictGet (d ++ e) k =
      match dictGet d k with
      | some w => some w
      | none => dictGet e k := by
  induction d with
  | nil => simp [dictGet]
  | cons p d ih =>
    by_cases h : p.1 = k
    · simp [dictGet, h]
    · simp [dictGet, h, ih]

theorem dictGet_dictSetdefault_self (d : ScoreDict) (k : String) (v : Option ℚ) :
    dictGet (dictSetdefault d k v) k = some ((dictGet d k).getD v) := by
  unfold dictSetdefault
  rcases h : dictGet d k with _ | w
  · simp [h, dictGet_append, dictGet]
  · simp [h]

theorem dictGet_dictSetdefault_ne (d : ScoreDict) (k k' : String) (v : Option ℚ)
    (h : k' ≠ k) : dictGet (dictSetdefault d k v) k' = dictGet d k' := by
  unfold dictSetdefault
  rcases hk : dictGet d k with _ | w
  · rcases hk' : dictGet d k' with _ | w'
    · simp [dictGet_append, hk', dictGet, Ne.symm h]
    · simp [dictGet_append, hk']
  · simp

theorem dictGet_dictSetdefault_some (d : ScoreDict) (k k' : String)
    (v w : Option ℚ) (h : dictGet d k' = some w) :
    dictGet (dictSetdefault d k v) k' = some w := by
  by_cases hk : k' = k
  · subst hk
    rw [dictGet_dictSetdefault_self, h]
    rfl
  · rw [dictGet_dictSetdefault_ne _ _ _ _ hk, h]

/-! ## Lemmas about the batch loops of `trends_popularity` -/

theorem dictGet_setNoneAll_some (ks : List String) :
    ∀ (s : ScoreDict) (k : String) (w : Option ℚ), dictGet s k = some w →
      dictGet (setNoneAll s ks) k = some w := by
  induction ks with
  | nil => intro s k w h; exact h
  | cons k' ks ih =>
    intro s k w h
    exact ih _ _ _ (dictGet_dictSetdefault_some _ _ _ _ _ h)

theorem dictGet_setNoneAll_notmem (ks : List String) :
    ∀ (s : ScoreDict) (k : String), k ∉ ks →
      dictGet (setNoneAll s ks) k = dictGet s k := by
  induction ks with
  | nil => intro s k _; rfl
  | cons k' ks ih =>
    intro s k h
    rw [List.mem_cons, not_or] at h
    rw [setNoneAll, ih _ _ h.2, dictGet_dictSetdefault_ne _ _ _ _ h.1]

theorem dictGet_setNoneAll_mem (ks : List String) :
    ∀ (s : ScoreDict) (k : String), k ∈ ks →
      dictGet (setNoneAll s ks) k = some ((dictGet s k).getD none) := by
  induction ks with
  | nil => intro s k h; simp at h
  | cons k' ks ih =>
    intro s k h
    by_cases hk : k = k'
    · subst hk
      rw [setNoneAll]
      exact dictGet_setNoneAll_some _ _ _ _ (dictGet_dictSetdefault_self _ _ _)
    · rw [setNoneAll, ih _ _ ((List.mem_cons.mp h).resolve_left hk),
        dictGet_dictSetdefault_ne _ _ _ _ hk]

theorem dictGet_setMeansAll_notmem (m : List (String × ℚ)) (ks : List String) :
    ∀ (s : ScoreDict) (k : String), k ∉ ks →
      dictGet (setMeansAll m s ks) k = dictGet s k := by
  induction ks with
  | nil => intro s k _; rfl
  | cons k' ks ih =>
    intro s k h
    rw [List.mem_cons, not_or] at h
    rw [setMeansAll, ih _ _ h.2, dictGet_dictSet_ne _ _ _ _ h.1]

theorem dictGet_setMeansAll_mem (m : List (String × ℚ)) (ks : List String) :
    ∀ (s : ScoreDict) (k : String), k ∈ ks →
      dictGet (setMeansAll m s ks) k = some (meansGet m k) := by
  induction ks with
  | nil => intro s k h; simp at h
  | cons k' ks ih =>
    intro s k h
    by_cases hk : k ∈ ks
    · exact ih _ _ hk
    · have hk' : k = k' := (List.mem_cons.mp h).resolve_right hk
      subst hk'
      rw [setMeansAll, dictGet_setMeansAll_notmem _ _ _ _ hk,
        dictGet_dictSet_self]

theorem dictGet_processBatch_notmem (res : TrendsResult) (s : ScoreDict)
    (group : List String) (k : String) (h : k ∉ group) :
    dictGet (processBatch res s group) k = dictGet s k := by
  cases res with
  | failure => exact dictGet_setNoneAll_notmem _ _ _ h
  | empty => exact dictGet_setNoneAll_notmem _ _ _ h
  | data m => exact dictGet_setMeansAll_notmem _ _ _ _ h

theorem dictGet_processBatch_isSome (res : TrendsResult) (s : ScoreDict)
    (group : List String) (k : String) (h : (dictGet s k).isSome) :
    (dictGet (processBatch res s group) k).isSome := by
  rcases Option.isSome_iff_exists.mp h with ⟨w, hw⟩
  cases res with
  | failure => rw [processBatch, dictGet_setNoneAll_some _ _ _ _ hw]; rfl
  | empty => rw [processBatch, dictGet_setNoneAll_some _ _ _ _ hw]; rfl
  | data m =>
    by_cases hk : k ∈ group
    · rw [processBatch, dictGet_setMeansAll_mem _ _ _ _ hk]; rfl
    · rw [processBatch, dictGet_setMeansAll_notmem _ _ _ _ hk, hw]; rfl

theorem dictGet_processBatch_mem_isSome (res : TrendsResult) (s : ScoreDict)
    (group : List String) (k : String) (h : k ∈ group) :
    (dictGet (processBatch res s group) k).isSome := by
  cases res with
  | failure => rw [processBatch, dictGet_setNoneAll_mem _ _ _ h]; rfl
  | empty => rw [processBatch, dictGet_setNoneAll_mem _ _ _ h]; rfl
  | data m => rw [processBatch, dictGet_setMeansAll_mem _ _ _ _ h]; rfl

theorem trendsLoop_queries (svc : ℕ → TrendsResult) (gs : List (List String)) :
    ∀ (i : ℕ) (s : ScoreDict), (trendsLoop svc i s gs).2 = gs := by
  induction gs with
  | nil => intro i s; rfl
  | cons g gs ih => intro i s; simp only [trendsLoop]; rw [ih]

theorem trendsLoop_notmem (svc : ℕ → TrendsResult) (gs : List (List String)) :
    ∀ (i : ℕ) (s : ScoreDict) (k : String), (∀ g ∈ gs, k ∉ g) →
      dictGet (trendsLoop svc i s gs).1 k = dictGet s k := by
  induction gs with
  | nil => intro i s k _; rfl
  | cons g gs ih =>
    intro i s k h
    have h1 : k ∉ g := h g (List.mem_cons_self _ _)
    have h2 : ∀ g' ∈ gs, k ∉ g' := fun g' hg' => h g' (List.mem_cons_of_mem _ hg')
    simp only [trendsLoop]
    rw [ih _ _ _ h2, dictGet_processBatch_notmem _ _ _ _ h1]

theorem trendsLoop_isSome (svc : ℕ → TrendsResult) (gs : List (List String)) :
    ∀ (i : ℕ) (s : ScoreDict) (k : String), (dictGet s k).isSome →
      (dictGet (trendsLoop svc i s gs).1 k).isSome := by
  induction gs with
  | nil => intro i s k h; exact h
  | cons g gs ih =>
    intro i s k h
    exact ih _ _ _ (dictGet_processBatch_isSome _ _ _ _ h)

theorem trendsLoop_mem_isSome (svc : ℕ → TrendsResult) (gs : List (List String)) :
    ∀ (i : ℕ) (s : ScoreDict) (k : String) (g : List String), g ∈ gs → k ∈ g →
      (dictGet (trendsLoop svc i s gs).1 k).isSome := by
  induction gs with
  | nil => intro i s k g hg; simp at hg
  | cons g' gs ih =>
    intro i s k g hg hk
    rcases List.mem_cons.mp hg with h | h
    · subst h
      simp only [trendsLoop]
      exact trendsLoop_isSome _ _ _ _ _ (dictGet_processBatch_mem_isSome _ _ _ _ hk)
    · exact ih _ _ _ _ h hk

/-- Walking the loop over `pre ++ g :: post`: if `k` occurs only in the batch
`g`, `k` is absent from the running dict, and the query for `g` fails or
returns an empty frame, then `k` ends bound to `None`. -/
theorem trendsLoop_failed_unique (svc : ℕ → TrendsResult) (k : String) :
    ∀ (pre : List (List String)) (g : List String) (post : List (List String))
      (i : ℕ) (s : ScoreDict),
      (∀ p ∈ pre, k ∉ p) → k ∈ g → (∀ p ∈ post, k ∉ p) →
      (svc (i + pre.length) = TrendsResult.failure ∨
        svc (i + pre.length) = TrendsResult.empty) →
      dictGet s k = none →
      dictGet (trendsLoop svc i s (pre ++ g :: post)).1 k = some none := by
  intro pre
  induction pre with
  | nil =>
    intro g post i s _ hg hpost hsvc hnone
    rw [List.nil_append]
    simp only [trendsLoop]
    rw [trendsLoop_notmem _ _ _ _ _ hpost]
    simp only [List.length_nil, Nat.add_zero] at hsvc
    have hpb : dictGet (processBatch (svc i) s g) k = some ((dictGet s k).getD none) := by
      rcases hsvc with h | h <;> rw [h] <;> exact dictGet_setNoneAll_mem _ _ _ hg
    rw [hpb, hnone]
    rfl
  | cons p pre ih =>
    intro g post i s hpre hg hpost hsvc hnone
    rw [List.cons_append]
    simp only [trendsLoop]
    have hkp : k ∉ p := hpre p (List.mem_cons_self _ _)
    have hpre' : ∀ q ∈ pre, k ∉ q := fun q hq => hpre q (List.mem_cons_of_mem _ hq)
    have hsvc' : svc (i + 1 + pre.length) = TrendsResult.failure ∨
        svc (i + 1 + pre.length) = TrendsResult.empty := by
      have harith : i + 1 + pre.length = i + (p :: pre).length := by
        simp only [List.length_cons]
        omega
      rw [harith]
      exact hsvc
    refine ih g post (i + 1) (processBatch (svc i) s p) hpre' hg hpost hsvc' ?_
    rw [dictGet_processBatch_notmem _ _ _ _ hkp]
    exact hnone

theorem trends_popularity_queries (keywords : List String)
    (svc : ℕ → TrendsResult) :
    (trends_popularity keywords svc).queries = chunk keywords 5 := by
  cases keywords with
  | nil => rfl
  | cons x xs => simp [trends_popularity, trendsLoop_queries]

theorem trends_popularity_scores (x : String) (xs : List String)
    (svc : ℕ → TrendsResult) :
    (trends_popularity (x :: xs) svc).scores =
      (trendsLoop svc 0 [] (chunk (x :: xs) 5)).1 := by
  rw [trends_popularity]
  simp

/-! ## Lemmas about the stable descending sort -/

theorem insertDesc_perm (key : String → Option ℚ) (x : String) (l : List String) :
    (insertDesc key x l).Perm (x :: l) := by
  induction l with
  | nil => exact List.Perm.refl _
  | cons y ys ih =>
    rw [insertDesc]
    by_cases h : keyGe (key x) (key y)
    · rw [if_pos h]
    · rw [if_neg h]
      exact (ih.cons y).trans (List.Perm.swap x y ys)

theorem sortDesc_perm (key : String → Option ℚ) (l : List String) :
    (sortDesc key l).Perm l := by
  induction l with
  | nil => exact List.Perm.refl _
  | cons x xs ih =>
    rw [sortDesc]
    exact (insertDesc_perm key x (sortDesc key xs)).trans (ih.cons x)

theorem rankKeywords_fst_perm (candidates : List String) (pop : ScoreDict) :
    ((rankKeywords candidates pop).map Prod.fst).Perm candidates := by
  rw [rankKeywords]
  simp only [List.map_map]
  have : (Prod.fst ∘ fun k => (k, (dictGet pop k).join)) = id := rfl
  rw [this, List.map_id]
  exact sortDesc_perm _ _

/-! ## Lemmas about `fromkeys` -/

theorem fromkeysAux_sublist (l : List String) :
    ∀ (seen : List String), (fromkeysAux seen l).Sublist l := by
  induction l with
  | nil => intro seen; exact List.Sublist.refl _
  | cons x xs ih =>
    intro seen
    rw [fromkeysAux]
    by_cases h : x ∈ seen
    · rw [if_pos h]
      exact (ih seen).cons x
    · rw [if_neg h]
      exact (ih (x :: seen)).cons₂ x

theorem fromkeysAux_mem (l : List String) :
    ∀ (seen : List String) (a : String),
      a ∈ fromkeysAux seen l ↔ a ∈ l ∧ a ∉ seen := by
  induction l with
  | nil => intro seen a; simp [fromkeysAux]
  | cons x xs ih =>
    intro seen a
    rw [fromkeysAux]
    by_cases h : x ∈ seen
    · rw [if_pos h, ih]
      constructor
      · rintro ⟨h1, h2⟩
        exact ⟨List.mem_cons_of_mem _ h1, h2⟩
      · rintro ⟨h1, h2⟩
        rcases List.mem_cons.mp h1 with h3 | h3
        · exact absurd (h3 ▸ h) h2
        · exact ⟨h3, h2⟩
    · rw [if_neg h]
      by_cases ha : a = x
      · subst ha
        simp [h]
      · simp only [List.mem_cons, ha, false_or, ih, not_or]

theorem fromkeysAux_nodup (l : List String) :
    ∀ (seen : List String), (fromkeysAux seen l).Nodup := by
  induction l with
  | nil => intro seen; simp [fromkeysAux]
  | cons x xs ih =>
    intro seen
    rw [fromkeysAux]
    by_cases h : x ∈ seen
    · rw [if_pos h]
      exact ih seen
    · rw [if_neg h]
      refine List.nodup_cons.mpr ⟨?_, ih (x :: seen)⟩
      intro hmem
      exact ((fromkeysAux_mem _ _ _).mp hmem).2 (List.mem_cons_self _ _)

theorem fromkeys_sublist (l : List String) : (fromkeys l).Sublist l :=
  fromkeysAux_sublist l []

theorem fromkeys_mem (l : List String) (a : String) :
    a ∈ fromkeys l ↔ a ∈ l := by
  rw [fromkeys, fromkeysAux_mem]
  simp

theorem fromkeys_nodup (l : List String) : (fromkeys l).Nodup :=
  fromkeysAux_nodup l []

/-! ## Lemmas about `pyFind`/`pyRFind` -/

theorem pyFind_first (c : Char) (r : List Char) :
    ∀ (a : List Char), c ∉ a → pyFind c (a ++ c :: r) = some a.length := by
  intro a
  induction a with
  | nil => intro _; simp [pyFind]
  | cons x a ih =>
    intro h
    rw [List.mem_cons, not_or] at h
    have hx : ¬x = c := fun he => h.1 he.symm
    rw [List.cons_append, pyFind, if_neg hx, ih h.2]
    simp

theorem pyFind_none (c : Char) :
    ∀ (l : List Char), c ∉ l → pyFind c l = none := by
  intro l
  induction l with
  | nil => intro _; rfl
  | cons x xs ih =>
    intro h
    rw [List.mem_cons, not_or] at h
    rw [pyFind, if_neg (fun he => h.1 he.symm), ih h.2]
    rfl

theorem pyRFind_last (c : Char) (a b : List Char) (hb : c ∉ b) :
    pyRFind c (a ++ c :: b) = some a.length := by
  rw [pyRFind]
  have hrev : (a ++ c :: b).reverse = b.reverse ++ c :: a.reverse := by
    rw [List.reverse_append, List.reverse_cons, List.append_assoc]
    rfl
  rw [hrev, pyFind_first c a.reverse b.reverse (by simpa using hb)]
  simp only [List.length_reverse, List.length_append, List.length_cons]
  congr 1
  omega

/-- Decomposing a list at a valid index. -/
theorem getElem?_decomp {α : Type} (l : List α) :
    ∀ (i : ℕ) (x : α), l[i]? = some x → l = l.take i ++ x :: l.drop (i + 1) := by
  induction l with
  | nil => intro i x h; simp at h
  | cons y ys ih =>
    intro i x h
    cases i with
    | zero =>
      simp only [List.getElem?_cons_zero, Option.some.injEq] at h
      subst h
      simp
    | succ i =>
      simp only [List.getElem?_cons_succ] at h
      have := ih i x h
      simp only [List.take_succ_cons, List.drop_succ_cons]
      rw [List.cons_append, ← this]

/-! ## Unfolding lemmas for the `upload` pipeline -/

theorem pipelineAfterText_ok (d : UploadDeps) (text : String) (sd : SeoData)
    (hb : isBlank text = false) (hk : d.keywords = Except.ok sd) :
    pipelineAfterText d text =
      (Except.ok ⟨sd.language_detected, sd.primary_topics, sd.by_intent,
        sd.questions,
        rankKeywords
          ((fromkeys sd.seed_keywords).take 15 ++ (fromkeys sd.long_tail_keywords).take 15)
          (trends_popularity
            ((fromkeys sd.seed_keywords).take 15 ++ (fromkeys sd.long_tail_keywords).take 15)
            d.trends).scores,
        (fromkeys sd.seed_keywords).take 15,
        (fromkeys sd.long_tail_keywords).take 15,
        (match d.copy with
         | Except.ok c => c
         | Except.error e => "Error generating SEO copy: " ++ e),
        if d.exportOk then some d.docxName else none⟩,
       PipeEvent.llmKeywords ::
         (trends_popularity
            ((fromkeys sd.seed_keywords).take 15 ++ (fromkeys sd.long_tail_keywords).take 15)
            d.trends).queries.map PipeEvent.trendsQuery
         ++ [PipeEvent.llmCopy]) := by
  rw [pipelineAfterText, hb, hk]
  simp

theorem upload_pdf (filename : String) (d : UploadDeps)
    (h : pyEndswith (pyLower filename) ".pdf" = true) :
    upload filename d =
      ((pipelineAfterText d d.pdfText).1,
       PipeEvent.extractPdf :: (pipelineAfterText d d.pdfText).2) := by
  rw [upload]
  simp [h]

theorem upload_docx (filename : String) (d : UploadDeps)
    (hpdf : pyEndswith (pyLower filename) ".pdf" = false)
    (h : pyEndswith (pyLower filename) ".docx" = true) :
    upload filename d =
      ((pipelineAfterText d d.docxText).1,
       PipeEvent.extractDocx :: (pipelineAfterText d d.docxText).2) := by
  rw [upload]
  simp [h, hpdf]

/-! ## Claim theorems -/

/-- C5: `chunk` splits any keyword list in order into consecutive groups of at
most 5 keywords, every group except possibly the last has exactly 5, the
groups concatenate back to the input, and a 13-keyword list yields groups of
sizes `[5, 5, 3]`. -/
theorem chunk_splits_in_fives (l : List String) :
    (chunk l 5).flatten = l ∧
    (∀ g ∈ chunk l 5, g.length ≤ 5) ∧
    (∀ g ∈ (chunk l 5).dropLast, g.length = 5) ∧
    (chunk (List.replicate 13 "k") 5).map List.length = [5, 5, 3] :=
  ⟨chunk_join 4 l, fun g hg => (chunk_mem_length 4 l g hg).1,
   chunk_dropLast_length 4 l, by decide⟩

/-- C10: on the empty keyword list, `trends_popularity` returns the empty
mapping at once: no `TrendReq` client is constructed and no batch is ever
queried, whatever the external service would do. -/
theorem trends_popularity_empty_input (svc : ℕ → TrendsResult) :
    trends_popularity [] svc = ⟨[], false, []⟩ := rfl

/-- C1 (evaluation at the failing input): with scores a=80, b=unknown, c=40
the code returns `[{c,40},{a,80},{b,unknown}]` — numeric scores in ASCENDING
order (the negated sort key and `reverse=True` cancel out), not the
descending order `[{a,80},{c,40},{b,unknown}]` the claim asserts; only the
placement of unknown scores at the bottom is as claimed. -/
theorem rankKeywords_ascending_at_spec_example :
    rankKeywords ["a", "b", "c"] [("a", some 80), ("b", none), ("c", some 40)] =
      [("c", some 40), ("a", some 80), ("b", none)] := rfl

/-- C2 counterexample: the keyword list `[a,b,c,d,e,a]` puts `a` in both
batches; the first batch succeeds with score 80 for `a` and the second batch
(consisting of `a` alone) raises, yet `a`'s entry in the returned mapping is
80, not unknown — `setdefault` does not overwrite the score recorded by the
earlier batch, refuting "every keyword of that batch is assigned an unknown
score". -/
theorem trends_failed_batch_keeps_earlier_score :
    chunk ["a", "b", "c", "d", "e", "a"] 5 =
      [["a", "b", "c", "d", "e"], ["a"]] ∧
    svcC2 1 = TrendsResult.failure ∧
    "a" ∈ ["a"] ∧
    dictGet (trends_popularity ["a", "b", "c", "d", "e", "a"] svcC2).scores "a" =
      some (some 80) ∧
    dictGet (trends_popularity ["a", "b", "c", "d", "e", "a"] svcC2).scores "a" ≠
      some none := by
  refine ⟨rfl, rfl, by decide, rfl, by decide⟩

/-- C2 (amended): when the query for a batch fails or returns an empty frame,
(1) processing that batch never changes an entry already recorded (by any
other batch), (2) every keyword of the batch is `setdefault`-ed: it ends the
batch with an entry, which is unknown (`None`) unless a score was already
recorded for it, (3) in the whole run every keyword of such a batch has an
entry in the returned mapping, and (4) a keyword occurring exactly once in
the request (hence in no other batch) whose batch fails or is empty is
mapped to unknown; `trends_popularity` is a total function, so a batch
failure never propagates out of it. -/
theorem trends_failed_batch_assigns_unknown
    (keywords : List String) (svc : ℕ → TrendsResult) (i : ℕ)
    (group : List String)
    (hget : (chunk keywords 5)[i]? = some group)
    (hsvc : svc i = TrendsResult.failure ∨ svc i = TrendsResult.empty) :
    (∀ (s : ScoreDict) (k : String) (w : Option ℚ), dictGet s k = some w →
      dictGet (processBatch (svc i) s group) k = some w) ∧
    (∀ (s : ScoreDict) (k : String), k ∈ group →
      dictGet (processBatch (svc i) s group) k = some ((dictGet s k).getD none)) ∧
    (∀ k ∈ group, (dictGet (trends_popularity keywords svc).scores k).isSome) ∧
    (∀ k ∈ group, keywords.count k = 1 →
      dictGet (trends_popularity keywords svc).scores k = some none) := by
  have hpb1 : ∀ (s : ScoreDict) (k : String) (w : Option ℚ), dictGet s k = some w →
      dictGet (processBatch (svc i) s group) k = some w := by
    intro s k w hw
    rcases hsvc with h | h <;> rw [h] <;> exact dictGet_setNoneAll_some _ _ _ _ hw
  have hpb2 : ∀ (s : ScoreDict) (k : String), k ∈ group →
      dictGet (processBatch (svc i) s group) k = some ((dictGet s k).getD none) := by
    intro s k hk
    rcases hsvc with h | h <;> rw [h] <;> exact dictGet_setNoneAll_mem _ _ _ hk
  refine ⟨hpb1, hpb2, ?_, ?_⟩
  · intro k hk
    cases keywords with
    | nil => rw [chunk_nil] at hget; simp at hget
    | cons x xs =>
      rw [trends_popularity_scores]
      have hmem : group ∈ chunk (x :: xs) 5 := by
        have hlt : i < (chunk (x :: xs) 5).length := by
          by_contra hge
          rw [List.getElem?_eq_none (Nat.le_of_not_lt hge)] at hget
          exact Option.noConfusion hget
        have : (chunk (x :: xs) 5)[i] = group := by
          have := List.getElem?_eq_getElem hlt
          rw [this] at hget
          exact Option.some.injEq _ _ ▸ hget.symm ▸ rfl
        rw [← this]
        exact List.getElem_mem _
      exact trendsLoop_mem_isSome _ _ _ _ _ _ hmem hk
  · intro k hk hcount
    cases keywords with
    | nil => rw [chunk_nil] at hget; simp at hget
    | cons x xs =>
      rw [trends_popularity_scores]
      have hlt : i < (chunk (x :: xs) 5).length := by
        by_contra hge
        rw [List.getElem?_eq_none (Nat.le_of_not_lt hge)] at hget
        exact Option.noConfusion hget
      have hdec : chunk (x :: xs) 5 =
          (chunk (x :: xs) 5).take i ++ group :: (chunk (x :: xs) 5).drop (i + 1) :=
        getElem?_decomp _ i group hget
      have hflat : (chunk (x :: xs) 5).flatten = x :: xs := chunk_join 4 (x :: xs)
      have hkw : ((chunk (x :: xs) 5).take i ++
          group :: (chunk (x :: xs) 5).drop (i + 1)).flatten = x :: xs := by
        rw [← hdec]
        exact hflat
      rw [List.flatten_append, List.flatten_cons] at hkw
      have hcnt : ((chunk (x :: xs) 5).take i).flatten.count k +
          (group.count k + ((chunk (x :: xs) 5).drop (i + 1)).flatten.count k) = 1 := by
        have h2 := hcount
        rw [← hkw] at h2
        simp only [List.count_append] at h2
        omega
      have hgpos : 0 < group.count k := List.count_pos_iff.mpr hk
      have hprecnt : ((chunk (x :: xs) 5).take i).flatten.count k = 0 := by omega
      have hpostcnt : ((chunk (x :: xs) 5).drop (i + 1)).flatten.count k = 0 := by omega
      have hpre : ∀ p ∈ (chunk (x :: xs) 5).take i, k ∉ p := by
        intro p hp hkp
        exact (List.count_eq_zero.mp hprecnt) (List.mem_flatten.mpr ⟨p, hp, hkp⟩)
      have hpost : ∀ p ∈ (chunk (x :: xs) 5).drop (i + 1), k ∉ p := by
        intro p hp hkp
        exact (List.count_eq_zero.mp hpostcnt) (List.mem_flatten.mpr ⟨p, hp, hkp⟩)
      have hlen : ((chunk (x :: xs) 5).take i).length = i := by
        rw [List.length_take]
        omega
      have hsvc' : svc (0 + ((chunk (x :: xs) 5).take i).length) = TrendsResult.failure ∨
          svc (0 + ((chunk (x :: xs) 5).take i).length) = TrendsResult.empty := by
        rw [hlen, Nat.zero_add]
        exact hsvc
      have := trendsLoop_failed_unique svc k ((chunk (x :: xs) 5).take i) group
        ((chunk (x :: xs) 5).drop (i + 1)) 0 [] hpre hk hpost hsvc' rfl
      rw [← hdec] at this
      exact this

/-- Witness for the amended C2 at a concrete run: six distinct keywords, all
batches failing; the lone keyword of the second batch is mapped to unknown. -/
theorem trends_failed_batch_assigns_unknown_witness :
    dictGet (trends_popularity ["a", "b", "c", "d", "e", "f"]
      (fun _ => TrendsResult.failure)).scores "f" = some none :=
  (trends_failed_batch_assigns_unknown ["a", "b", "c", "d", "e", "f"]
    (fun _ => TrendsResult.failure) 1 ["f"] rfl (Or.inl rfl)).2.2.2 "f"
    (by decide) (by decide)

/-- The brace slice on a decomposed input: prose without an opening brace,
the object, prose without a closing brace. -/
theorem braceSlice_decomp (a m b : List Char)
    (ha : '\x7b' ∉ a) (hb : '\x7d' ∉ b) :
    braceSlice (a ++ '\x7b' :: (m ++ '\x7d' :: b)) = '\x7b' :: (m ++ ['\x7d']) := by
  have hfind : pyFind '\x7b' (a ++ '\x7b' :: (m ++ '\x7d' :: b)) = some a.length :=
    pyFind_first _ _ a ha
  have hassoc : a ++ '\x7b' :: (m ++ '\x7d' :: b) = (a ++ '\x7b' :: m) ++ '\x7d' :: b := by
    simp
  have hrfind : pyRFind '\x7d' (a ++ '\x7b' :: (m ++ '\x7d' :: b)) =
      some (a.length + (m.length + 1)) := by
    rw [hassoc, pyRFind_last _ _ _ hb]
    simp
  rw [braceSlice, hfind, hrfind]
  simp only
  rw [if_pos (by omega)]
  have hassoc2 : a ++ '\x7b' :: (m ++ '\x7d' :: b) = (a ++ '\x7b' :: (m ++ ['\x7d'])) ++ b := by
    simp
  rw [hassoc2, List.take_left' (by simp; omega)]
  exact List.drop_left _ _

/-- C4: for every LLM reply whose fence-stage output decomposes as prose
holding no opening brace, then the block from the first opening brace to the
last closing brace, then prose holding no closing brace (in particular any
fenced reply with prose on both sides of the JSON object — the fences are
stripped by the fence stage first), `_clean_json_block` returns exactly the
substring from the first opening brace to the last closing brace inclusive. -/
theorem clean_json_block_isolates_object (s : String) (a m b : List Char)
    (ha : '\x7b' ∉ a) (hb : '\x7d' ∉ b)
    (hdec : fenceStage s = a ++ '\x7b' :: (m ++ '\x7d' :: b)) :
    clean_json_block s = ⟨'\x7b' :: (m ++ ['\x7d'])⟩ := by
  rw [clean_json_block, hdec, braceSlice_decomp a m b ha hb]

/-- Witness for C4 on a concrete fenced reply with prose around the object. -/
theorem clean_json_block_isolates_object_witness :
    clean_json_block "```json\nfoo \x7b\"k\": 1\x7d bar\n```" = "\x7b\"k\": 1\x7d" :=
  (clean_json_block_isolates_object "```json\nfoo \x7b\"k\": 1\x7d bar\n```"
    ("foo ".data) ("\"k\": 1".data) (" bar".data) (by decide) (by decide)
    (by decide)).trans (by decide)

/-- A line of whitespace, a dash, one whitespace character and a remainder is
rendered as a bullet with the matched prefix (including all consecutive
whitespace after the dash) stripped. -/
theorem lineToElem_bullet (pre : List Char) (w : Char) (rest : List Char)
    (hpre : ∀ c ∈ pre, pyWS c = true) (hw : pyWS w = true) :
    lineToElem (pre ++ '-' :: w :: rest) = DocElem.bullet (rest.dropWhile pyWS) := by
  have hdw : (pre ++ '-' :: w :: rest).dropWhile pyWS = '-' :: w :: rest := by
    induction pre with
    | nil => simp [List.dropWhile, pyWS]
    | cons c pre' ih =>
      rw [List.cons_append, List.dropWhile_cons_of_pos (hpre c (List.mem_cons_self _ _))]
      exact ih (fun c' hc' => hpre c' (List.mem_cons_of_mem _ hc'))
  have h3 : (pre ++ '-' :: w :: rest).take 3 ≠ ['#', '#', ' '] := by
    cases pre with
    | nil => simp
    | cons c pre' =>
      intro hEq
      simp only [List.cons_append, List.take_succ_cons, List.cons.injEq] at hEq
      have := hpre c (List.mem_cons_self _ _)
      rw [hEq.1] at this
      exact absurd this (by decide)
  have h4 : (pre ++ '-' :: w :: rest).take 4 ≠ ['#', '#', '#', ' '] := by
    cases pre with
    | nil => simp
    | cons c pre' =>
      intro hEq
      simp only [List.cons_append, List.take_succ_cons, List.cons.injEq] at hEq
      have := hpre c (List.mem_cons_self _ _)
      rw [hEq.1] at this
      exact absurd this (by decide)
  have hbm : bulletMatch (pre ++ '-' :: w :: rest) = some (rest.dropWhile pyWS) := by
    rw [bulletMatch, hdw]
    simp only [if_pos hw]
    rw [List.dropWhile_cons_of_pos hw]
  rw [lineToElem, if_neg h3, if_neg h4, hbm]

/-- C7: the DOCX conversion maps the lines of the Markdown independently and
in order; a line `## x` becomes a top heading `x`, a line `### x` a
sub-heading `x`, a whitespace-dash-whitespace prefixed line a bullet with the
matched marker stripped, and any other line — the empty line included — a
plain paragraph; the spec's four-line example maps accordingly. -/
theorem markdown_to_docx_linewise :
    (∀ md : String, markdown_to_docx md = (pySplitlines md.data).map lineToElem) ∧
    (∀ rest : List Char, lineToElem ('#' :: '#' :: ' ' :: rest) = DocElem.heading1 rest) ∧
    (∀ rest : List Char,
      lineToElem ('#' :: '#' :: '#' :: ' ' :: rest) = DocElem.heading2 rest) ∧
    (∀ (pre : List Char) (w : Char) (rest : List Char),
      (∀ c ∈ pre, pyWS c = true) → pyWS w = true →
      lineToElem (pre ++ '-' :: w :: rest) = DocElem.bullet (rest.dropWhile pyWS)) ∧
    lineToElem [] = DocElem.para [] ∧
    (∀ line : List Char, line.take 3 ≠ ['#', '#', ' '] →
      line.take 4 ≠ ['#', '#', '#', ' '] → bulletMatch line = none →
      lineToElem line = DocElem.para line) ∧
    markdown_to_docx "## A\n### B\n- item\nplain" =
      [DocElem.heading1 "A".data, DocElem.heading2 "B".data,
       DocElem.bullet "item".data, DocElem.para "plain".data] := by
  refine ⟨fun _ => rfl, fun rest => rfl, fun rest => rfl, lineToElem_bullet,
    rfl, ?_, by decide⟩
  intro line h3 h4 hbm
  rw [lineToElem, if_neg h3, if_neg h4, hbm]

/-- Witness for C7: the bullet rule applied at a concrete indented line. -/
theorem markdown_to_docx_linewise_witness :
    lineToElem (" ".data ++ '-' :: ' ' :: "item".data) = DocElem.bullet "item".data :=
  (markdown_to_docx_linewise.2.2.2.1 (" ".data) ' ' ("item".data)
    (by decide) (by decide)).trans (by decide)

/-- C3: an upload whose lowercased filename ends neither in `.pdf` nor in
`.docx` is rejected with the unsupported-type error before any pipeline step
runs (no extraction, LLM or trends event); a supported upload whose extracted
text is blank (all whitespace) is rejected with the empty-text error right
after extraction, with no LLM or trends call made. -/
theorem upload_rejects_bad_inputs :
    (∀ (filename : String) (d : UploadDeps),
      pyEndswith (pyLower filename) ".pdf" = false →
      pyEndswith (pyLower filename) ".docx" = false →
      upload filename d = (Except.error UploadError.unsupportedType, [])) ∧
    (∀ (filename : String) (d : UploadDeps),
      pyEndswith (pyLower filename) ".pdf" = true →
      isBlank d.pdfText = true →
      upload filename d =
        (Except.error UploadError.emptyText, [PipeEvent.extractPdf])) ∧
    (∀ (filename : String) (d : UploadDeps),
      pyEndswith (pyLower filename) ".pdf" = false →
      pyEndswith (pyLower filename) ".docx" = true →
      isBlank d.docxText = true →
      upload filename d =
        (Except.error UploadError.emptyText, [PipeEvent.extractDocx])) := by
  refine ⟨?_, ?_, ?_⟩
  · intro filename d h1 h2
    rw [upload]
    simp [h1, h2]
  · intro filename d h1 hb
    rw [upload_pdf filename d h1, pipelineAfterText, hb]
    simp
  · intro filename d h1 h2 hb
    rw [upload_docx filename d h1 h2, pipelineAfterText, hb]
    simp

/-- Witness for C3 at three concrete uploads. -/
theorem upload_rejects_bad_inputs_witness :
    upload "notes.txt" depsBlank = (Except.error UploadError.unsupportedType, []) ∧
    upload "blank.pdf" depsBlank =
      (Except.error UploadError.emptyText, [PipeEvent.extractPdf]) ∧
    upload "blank.docx" depsBlank =
      (Except.error UploadError.emptyText, [PipeEvent.extractDocx]) :=
  ⟨upload_rejects_bad_inputs.1 "notes.txt" depsBlank rfl rfl,
   upload_rejects_bad_inputs.2.1 "blank.pdf" depsBlank rfl rfl,
   upload_rejects_bad_inputs.2.2 "blank.docx" depsBlank rfl rfl rfl⟩

theorem filterMap_trendsQuery (qs : List (List String)) :
    (qs.map PipeEvent.trendsQuery).filterMap
      (fun e => match e with | PipeEvent.trendsQuery g => some g | _ => none) = qs := by
  induction qs with
  | nil => rfl
  | cons q qs ih =>
    simp only [List.map_cons, List.filterMap_cons]
    rw [ih]

/-- C6: once the synthesizer has answered, the candidate list handed to the
popularity ranker is the de-duplicated (first occurrences kept) seed list
capped at 15 followed by the equally de-duplicated and capped long-tail
list; the batches queried are exactly `chunk` of that list and concatenate
back to it; the response's `seed_keywords` and `long_tail_keywords` are those
same two lists, which are duplicate-free, order-preserving sublists of the
synthesizer's lists with the same members and at most 15 entries each. -/
theorem upload_candidates_deduped_capped (filename : String) (d : UploadDeps)
    (sd : SeoData)
    (hpdf : pyEndswith (pyLower filename) ".pdf" = true)
    (hb : isBlank d.pdfText = false)
    (hk : d.keywords = Except.ok sd) :
    (upload filename d).1 =
      Except.ok ⟨sd.language_detected, sd.primary_topics, sd.by_intent,
        sd.questions,
        rankKeywords
          ((fromkeys sd.seed_keywords).take 15 ++ (fromkeys sd.long_tail_keywords).take 15)
          (trends_popularity
            ((fromkeys sd.seed_keywords).take 15 ++ (fromkeys sd.long_tail_keywords).take 15)
            d.trends).scores,
        (fromkeys sd.seed_keywords).take 15,
        (fromkeys sd.long_tail_keywords).take 15,
        (match d.copy with
         | Except.ok c => c
         | Except.error e => "Error generating SEO copy: " ++ e),
        if d.exportOk then some d.docxName else none⟩ ∧
    trendsQueriesOf (upload filename d).2 =
      chunk ((fromkeys sd.seed_keywords).take 15 ++ (fromkeys sd.long_tail_keywords).take 15) 5 ∧
    (chunk ((fromkeys sd.seed_keywords).take 15 ++ (fromkeys sd.long_tail_keywords).take 15) 5).flatten =
      (fromkeys sd.seed_keywords).take 15 ++ (fromkeys sd.long_tail_keywords).take 15 ∧
    ((fromkeys sd.seed_keywords).take 15).Nodup ∧
    ((fromkeys sd.seed_keywords).take 15).Sublist sd.seed_keywords ∧
    (∀ a, a ∈ fromkeys sd.seed_keywords ↔ a ∈ sd.seed_keywords) ∧
    ((fromkeys sd.seed_keywords).take 15).length ≤ 15 ∧
    ((fromkeys sd.long_tail_keywords).take 15).Nodup ∧
    ((fromkeys sd.long_tail_keywords).take 15).Sublist sd.long_tail_keywords ∧
    (∀ a, a ∈ fromkeys sd.long_tail_keywords ↔ a ∈ sd.long_tail_keywords) ∧
    ((fromkeys sd.long_tail_keywords).take 15).length ≤ 15 := by
  have hup := upload_pdf filename d hpdf
  have hpipe := pipelineAfterText_ok d d.pdfText sd hb hk
  refine ⟨?_, ?_, chunk_join 4 _,
    (List.take_sublist _ _).nodup (fromkeys_nodup _),
    (List.take_sublist _ _).trans (fromkeys_sublist _),
    fromkeys_mem _,
    List.length_take_le _ _,
    (List.take_sublist _ _).nodup (fromkeys_nodup _),
    (List.take_sublist _ _).trans (fromkeys_sublist _),
    fromkeys_mem _,
    List.length_take_le _ _⟩
  · rw [hup, hpipe]
  · rw [hup, hpipe]
    simp only [trendsQueriesOf, List.filterMap_cons, List.filterMap_append]
    rw [filterMap_trendsQuery, trends_popularity_queries]
    simp

/-- Witness for C6: the trends batches of a concrete successful run. -/
theorem upload_candidates_deduped_capped_witness :
    trendsQueriesOf (upload "a.pdf" depsX).2 =
      chunk ((fromkeys sdX.seed_keywords).take 15 ++
        (fromkeys sdX.long_tail_keywords).take 15) 5 :=
  (upload_candidates_deduped_capped "a.pdf" depsX sdX rfl rfl rfl).2.1

/-- C8: when the copy-composition call raises, the request is not aborted:
the response is still `200 OK`, its `seo_copy_markdown` is the visible string
`"Error generating SEO copy: <message>"`, and every other field (keywords,
intents, ranking, export) is returned exactly as computed. -/
theorem upload_copy_failure_degrades (filename : String) (d : UploadDeps)
    (sd : SeoData) (e : String)
    (hpdf : pyEndswith (pyLower filename) ".pdf" = true)
    (hb : isBlank d.pdfText = false)
    (hk : d.keywords = Except.ok sd)
    (hcopy : d.copy = Except.error e) :
    (upload filename d).1 =
      Except.ok ⟨sd.language_detected, sd.primary_topics, sd.by_intent,
        sd.questions,
        rankKeywords
          ((fromkeys sd.seed_keywords).take 15 ++ (fromkeys sd.long_tail_keywords).take 15)
          (trends_popularity
            ((fromkeys sd.seed_keywords).take 15 ++ (fromkeys sd.long_tail_keywords).take 15)
            d.trends).scores,
        (fromkeys sd.seed_keywords).take 15,
        (fromkeys sd.long_tail_keywords).take 15,
        "Error generating SEO copy: " ++ e,
        if d.exportOk then some d.docxName else none⟩ := by
  rw [upload_pdf filename d hpdf, pipelineAfterText_ok d d.pdfText sd hb hk, hcopy]

/-- Witness for C8: a concrete run whose copy call raises with message
`boom` still answers, with the inline error string as the copy. -/
theorem upload_copy_failure_degrades_witness :
    (upload "a.pdf" depsCopyFail).1.map (fun r => r.seo_copy_markdown) =
      Except.ok "Error generating SEO copy: boom" := by
  rw [upload_copy_failure_degrades "a.pdf" depsCopyFail sdX "boom" rfl rfl rfl rfl]
  rfl

/-- C9: `keywords_ranked` holds exactly one entry per candidate — same
length, keyword multiset a permutation of the candidate list — each paired
with that keyword's value in the popularity mapping (or null when absent);
since de-duplication is per-list, a keyword that is both a seed and a
long-tail phrase really does appear twice, as the concrete run shows. -/
theorem keywords_ranked_one_entry_per_candidate (candidates : List String)
    (pop : ScoreDict) :
    (rankKeywords candidates pop).length = candidates.length ∧
    ((rankKeywords candidates pop).map Prod.fst).Perm candidates ∧
    (∀ p ∈ rankKeywords candidates pop, p.2 = (dictGet pop p.1).join) ∧
    (upload "a.pdf" depsX).1.map (fun r => r.keywords_ranked) =
      Except.ok [("x", none), ("x", none)] := by
  refine ⟨?_, rankKeywords_fst_perm candidates pop, ?_, rfl⟩
  · have h := (rankKeywords_fst_perm candidates pop).length_eq
    rw [List.length_map] at h
    exact h
  · intro p hp
    rw [rankKeywords] at hp
    simp only [List.mem_map] at hp
    rcases hp with ⟨k, _, rfl⟩
    rfl

/-- Witness for C9: the permutation fact at a concrete duplicated candidate
list. -/
theorem keywords_ranked_one_entry_per_candidate_witness :
    ((rankKeywords ["x", "x"] [("x", none)]).map Prod.fst).Perm ["x", "x"] :=
  (keywords_ranked_one_entry_per_candidate ["x", "x"] [("x", none)]).2.1

/-- Witness for C5: the batch sizes of a concrete 13-keyword list. -/
theorem chunk_splits_in_fives_witness :
    (chunk (List.replicate 13 "k") 5).map List.length = [5, 5, 3] :=
  (chunk_splits_in_fives (List.replicate 13 "k")).2.2.2
